import Mathlib

/-!
Verification of the Tephra descriptor allocator and swapchain negotiation.

Shallow embedding of `src/tephra/src/descriptor.rs` and
`src/tephra/src/backend/vulkan/swapchain.rs`.  Machine sizes and cursors
(`usize`) are modelled as `Nat`; the opaque backend (Vulkan driver) behind
`Context` is modelled as a fresh-handle counter, following the spec's
description of handles as opaque identity tokens minted in batches.
-/

set_option autoImplicit false
set_option linter.unnecessarySeqFocus false

namespace Tephra

/-- Handle: typed opaque identifier, equality by identity (new_typed_handle!). -/
abbrev DescriptorHandle := Nat

/-- Handle for buffers, used by `DescriptorResource`. -/
abbrev BufferHandle := Nat

/-- DescriptorType from descriptor.rs: `Uniform | Storage`. -/
inductive DescriptorType where
  | Uniform
  | Storage
deriving DecidableEq, Repr

/-- Modelled from the spec: `ShaderView` (declared in commandbuffer.rs, which is
not among the provided sources) describes one descriptor binding required by a
shader stage: a binding index and a `DescriptorType`. -/
structure ShaderView where
  binding : Nat
  ty : DescriptorType
deriving DecidableEq, Repr

/-- Modelled from the spec: `ShaderViews` is an ordered list of `ShaderView`,
used as a whole as the signature keying pool allocators. -/
abbrev ShaderViews := List ShaderView

/-- DescriptorSizes from descriptor.rs: per-signature counts. -/
structure DescriptorSizes where
  buffer : Nat
  storage : Nat
  images : Nat
deriving DecidableEq, Repr

/-- DescriptorSizes::from_views: fold over the views, starting from all-zero
sizes; each binding's `DescriptorType` selects the counter incremented. -/
def DescriptorSizes.from_views (views : List ShaderView) : DescriptorSizes :=
  let sizes : DescriptorSizes := { buffer := 0, storage := 0, images := 0 }
  views.foldl
    (fun acc elem =>
      match elem.ty with
      | DescriptorType.Uniform => { acc with buffer := acc.buffer + 1 }
      | DescriptorType.Storage => { acc with storage := acc.storage + 1 })
    sizes

/-- Number of `Uniform` bindings in a view list. -/
def countUniform (views : List ShaderView) : Nat :=
  views.countP (fun e => decide (e.ty = DescriptorType.Uniform))

/-- Number of `Storage` bindings in a view list. -/
def countStorage (views : List ShaderView) : Nat :=
  views.countP (fun e => decide (e.ty = DescriptorType.Storage))

/-! Swapchain model (backend/vulkan/swapchain.rs).  The raw Vulkan enums are
value sets owned by the external `ash`/Vulkan collaborator; they are modelled
by their numeric codes, with the constants the source mentions. -/

/-- vk::Result code (i32 newtype in ash). -/
abbrev VkResult := Int

/-- vk::Result::ERROR_OUT_OF_DATE_KHR. -/
def VK_ERROR_OUT_OF_DATE_KHR : VkResult := -1000001004

/-- vk::Result::SUBOPTIMAL_KHR. -/
def VK_SUBOPTIMAL_KHR : VkResult := 1000001003

/-- SwapchainError from the swapchain module. -/
inductive SwapchainError where
  | OutOfDate
  | Suboptimal
  | Unknown
deriving DecidableEq, Repr

/-- SwapchainData::aquire_next_image: the driver's response (image index on
success, a `vk::Result` error code on failure) is mapped through the source's
`map_err` closure: out-of-date and suboptimal codes get their dedicated
variants, everything else becomes `Unknown`. -/
def aquire_next_image (driver : Except VkResult Nat) :
    Except SwapchainError Nat :=
  match driver with
  | Except.ok index => Except.ok index
  | Except.error err =>
      Except.error
        (if err = VK_ERROR_OUT_OF_DATE_KHR then SwapchainError.OutOfDate
         else if err = VK_SUBOPTIMAL_KHR then SwapchainError.Suboptimal
         else SwapchainError.Unknown)

/-- vk::Format code. -/
abbrev VkFormat := Int

/-- vk::Format::UNDEFINED. -/
def VK_FORMAT_UNDEFINED : VkFormat := 0

/-- vk::Format::B8G8R8_UNORM, the fallback format in create_swapchain. -/
def VK_FORMAT_B8G8R8_UNORM : VkFormat := 30

/-- vk::SurfaceFormatKHR: a format together with a color space code. -/
structure SurfaceFormatKHR where
  format : VkFormat
  color_space : Int
deriving DecidableEq, Repr

/-- Surface-format negotiation step of create_swapchain: map each reported
format, replacing an undefined one by the fallback while keeping the reported
color space, and take the first (`nth(0)`; the source's `expect` panic on an
empty list is modelled by `Option`). -/
def select_surface_format (surface_formats : List SurfaceFormatKHR) :
    Option SurfaceFormatKHR :=
  (surface_formats.map
    (fun sfmt =>
      if sfmt.format = VK_FORMAT_UNDEFINED then
        { format := VK_FORMAT_B8G8R8_UNORM, color_space := sfmt.color_space }
      else sfmt)).head?

/-- vk::PresentModeKHR code. -/
abbrev PresentModeKHR := Int

/-- vk::PresentModeKHR::MAILBOX. -/
def VK_PRESENT_MODE_MAILBOX_KHR : PresentModeKHR := 1

/-- vk::PresentModeKHR::FIFO. -/
def VK_PRESENT_MODE_FIFO_KHR : PresentModeKHR := 2

/-- Present-mode negotiation step of create_swapchain: find MAILBOX among the
supported modes, falling back to FIFO. -/
def select_present_mode (present_modes : List PresentModeKHR) :
    PresentModeKHR :=
  (present_modes.find?
    (fun mode => decide (mode = VK_PRESENT_MODE_MAILBOX_KHR))).getD
    VK_PRESENT_MODE_FIFO_KHR

/-! Linear pool allocator (descriptor.rs).  The `Context` is the type-erased
backend (`Arc<dyn ContextApi>`); the only capability the allocator uses is
`create_pool`, whose Vulkan implementation is not among the provided sources. -/

/-- Modelled from the spec: the backend context behind `CreatePool`.  Per the
spec, a `NativePool` is an opaque backend object capable of minting `count`
descriptor handles in one allocation call, and handles are opaque tokens
compared by identity; the backend is modelled as a counter minting fresh,
pairwise-distinct handles in batches. -/
structure Context where
  next_handle : Nat
deriving DecidableEq, Repr

/-- Modelled from the spec: a native descriptor pool holding the handles it
minted at creation. -/
structure NativePool where
  handles : List DescriptorHandle
deriving DecidableEq, Repr

/-- Modelled from the spec: `ctx.create_pool(alloc_size, data, sizes)` creates
one native pool primed with `alloc_size` fresh handles, advancing the backend
counter. -/
def Context.create_pool (ctx : Context) (alloc_size : Nat)
    (_data : ShaderViews) (_sizes : DescriptorSizes) : NativePool × Context :=
  (⟨List.range' ctx.next_handle alloc_size⟩,
   ⟨ctx.next_handle + alloc_size⟩)

/-- Modelled from the spec: `pool.inner.create_descriptor(count)` mints `count`
handles from the pool in one batch. -/
def NativePool.create_descriptor (pool : NativePool) (count : Nat) :
    List DescriptorHandle :=
  pool.handles.take count

/-- LinearPoolAllocator state from descriptor.rs. -/
structure LinearPoolAllocator where
  ctx : Context
  block_size : Nat
  pools : List NativePool
  descriptors : List DescriptorHandle
  views : ShaderViews
  sizes : DescriptorSizes
  current_allocations : Nat
deriving DecidableEq, Repr

/-- LinearPoolAllocator::new: sizes computed once, zero pools, zero cursor,
block_size fixed at 50. -/
def LinearPoolAllocator.new (ctx : Context) (views : ShaderViews) :
    LinearPoolAllocator :=
  { ctx := ctx
    block_size := 50
    pools := []
    descriptors := []
    views := views
    sizes := DescriptorSizes.from_views views
    current_allocations := 0 }

/-- LinearPoolAllocator::allocate_additional_pool: create one native pool for
`block_size` descriptors, mint `block_size` handles from it in one batch,
extend `descriptors`, push the pool. -/
def LinearPoolAllocator.allocate_additional_pool (a : LinearPoolAllocator) :
    LinearPoolAllocator :=
  let pc := a.ctx.create_pool a.block_size a.views a.sizes
  let pool := pc.1
  let descriptors := pool.create_descriptor a.block_size
  { a with
    ctx := pc.2
    descriptors := a.descriptors ++ descriptors
    pools := a.pools ++ [pool] }

/-- LinearPoolAllocator::create_descriptor: compute the pool index from the
cursor, grow by one pool if it is past the current pools, read
`descriptors[current_allocations]` (an out-of-bounds read panics in the
source, modelled by `Option`), then advance the cursor. -/
def LinearPoolAllocator.create_descriptor (a : LinearPoolAllocator) :
    Option (DescriptorHandle × LinearPoolAllocator) :=
  let allocator_index := a.current_allocations / a.block_size
  let a1 :=
    if allocator_index ≥ a.pools.length then a.allocate_additional_pool else a
  match a1.descriptors[a1.current_allocations]? with
  | none => none
  | some handle =>
      some (handle, { a1 with current_allocations := a1.current_allocations + 1 })

/-- LinearPoolAllocator::reset: the source loops over `pools`, setting the
cursor to 0 once per pool (so an allocator with no pools is left untouched). -/
def LinearPoolAllocator.reset (a : LinearPoolAllocator) : LinearPoolAllocator :=
  a.pools.foldl (fun s _pool => { s with current_allocations := 0 }) a

/-- Run `create_descriptor` `n` times, collecting the issued handles in
order. -/
def LinearPoolAllocator.createN :
    Nat → LinearPoolAllocator →
      Option (List DescriptorHandle × LinearPoolAllocator)
  | 0, a => some ([], a)
  | n + 1, a =>
      match a.create_descriptor with
      | none => none
      | some (h, a1) =>
          match LinearPoolAllocator.createN n a1 with
          | none => none
          | some (hs, a2) => some (h :: hs, a2)

/-! Pool router (descriptor.rs).  The `HashMap<ShaderViews, LinearPoolAllocator>`
is modelled as an association list with at most one entry per key; the
`entry(..).or_insert_with(..)` idiom becomes lookup-or-new followed by a
write-back of the mutated allocator. -/

/-- DescriptorResource from descriptor.rs. -/
inductive DescriptorResource where
  | Uniform : BufferHandle → DescriptorResource
  | Storage : BufferHandle → DescriptorResource
deriving DecidableEq, Repr

/-- Binding from descriptor.rs. -/
structure Binding (T : Type) where
  binding : Nat
  data : T
deriving DecidableEq, Repr

/-- Modelled from the spec: `Descriptor` (declared in commandbuffer.rs, which
is not among the provided sources) is a write request: a `ShaderViews`
signature plus bound resource values. -/
structure Descriptor where
  views : ShaderViews
  data : List (Binding DescriptorResource)
deriving DecidableEq, Repr

/-- Pool state from descriptor.rs. -/
structure Pool where
  ctx : Context
  allocators : List (ShaderViews × LinearPoolAllocator)
deriving DecidableEq, Repr

/-- Pool::new. -/
def Pool.new (ctx : Context) : Pool :=
  { ctx := ctx, allocators := [] }

/-- Map lookup by signature. -/
def Pool.findAllocator (p : Pool) (key : ShaderViews) :
    Option LinearPoolAllocator :=
  (p.allocators.find? (fun e => decide (e.1 = key))).map Prod.snd

/-- Write an entry back into the association list (insert if absent). -/
def setAllocator :
    List (ShaderViews × LinearPoolAllocator) → ShaderViews →
      LinearPoolAllocator → List (ShaderViews × LinearPoolAllocator)
  | [], key, v => [(key, v)]
  | e :: t, key, v =>
      if e.1 = key then (key, v) :: t else e :: setAllocator t key v

/-- Pool::allocate: look up (or lazily construct) the allocator keyed by
`data.views`, request one handle from it, write the descriptor contents
through the backend (`ctx.write`, a driver side effect outside the modelled
state), return the handle. -/
def Pool.allocate (p : Pool) (data : Descriptor) :
    Option (DescriptorHandle × Pool) :=
  let ctx := p.ctx
  let allocator :=
    match p.findAllocator data.views with
    | some a => a
    | none => LinearPoolAllocator.new ctx data.views
  match allocator.create_descriptor with
  | none => none
  | some (handle, allocator1) =>
      some (handle,
        { p with allocators := setAllocator p.allocators data.views allocator1 })

/-- Pool::reset: reset every owned allocator. -/
def Pool.reset (p : Pool) : Pool :=
  { p with allocators := p.allocators.map (fun e => (e.1, e.2.reset)) }

/-- A concrete pool state reached by one allocate call on a fresh pool, used
as a witness input. -/
def samplePool : Pool :=
  match (Pool.new ⟨0⟩).allocate { views := [], data := [] } with
  | some r => r.2
  | none => Pool.new ⟨0⟩

/-- A concrete allocator state reached by one create_descriptor call from a
fresh allocator, used as a witness input. -/
def sampleAllocator : LinearPoolAllocator :=
  match (LinearPoolAllocator.new ⟨0⟩ []).create_descriptor with
  | some r => r.2
  | none => LinearPoolAllocator.new ⟨0⟩ []

/-! Reachable allocator states.  `Reach a tr` says state `a` arises from some
fresh allocator by a sequence of `create_descriptor` and `reset` calls whose
issued handles, in order, are `tr`. -/

/-- The handles of a trace in order of first issuance (first-occurrence
deduplication). -/
def firstIssues : List DescriptorHandle → List DescriptorHandle
  | [] => []
  | h :: t => h :: firstIssues (t.filter (fun x => decide (x ≠ h)))
termination_by l => l.length
decreasing_by
  simp only [List.length_cons]
  exact Nat.lt_succ_of_le (List.length_filter_le _ _)

/-- Reachable states of one allocator, together with the issued-handle trace. -/
inductive Reach : LinearPoolAllocator → List DescriptorHandle → Prop where
  | new (ctx : Context) (views : ShaderViews) :
      Reach (LinearPoolAllocator.new ctx views) []
  | create {a : LinearPoolAllocator} {tr : List DescriptorHandle}
      {h : DescriptorHandle} {a1 : LinearPoolAllocator} :
      Reach a tr → a.create_descriptor = some (h, a1) → Reach a1 (tr ++ [h])
  | reset {a : LinearPoolAllocator} {tr : List DescriptorHandle} :
      Reach a tr → Reach a.reset tr

/-- Invariants of every reachable allocator state: the fixed block size, the
pool/cache length law, the cursor bound, the contiguous shape of the minted
handle cache, and the fact that the trace's first issuances are exactly a
prefix of the cache covering at least the cursor. -/
structure ReachInv (a : LinearPoolAllocator) (tr : List DescriptorHandle) :
    Prop where
  block : a.block_size = 50
  len_eq : a.descriptors.length = a.pools.length * a.block_size
  cursor_le : a.current_allocations ≤ a.descriptors.length
  shape : ∃ s n, a.descriptors = List.range' s n ∧
    a.ctx.next_handle = s + n
  issued : ∃ k, firstIssues tr = a.descriptors.take k ∧
    a.current_allocations ≤ k ∧ k ≤ a.descriptors.length

theorem from_views_fold (views : List ShaderView) (acc : DescriptorSizes) :
    views.foldl
      (fun acc elem =>
        match elem.ty with
        | DescriptorType.Uniform => { acc with buffer := acc.buffer + 1 }
        | DescriptorType.Storage => { acc with storage := acc.storage + 1 })
      acc
    = { acc with
        buffer := acc.buffer + countUniform views,
        storage := acc.storage + countStorage views } := by
  induction views generalizing acc with
  | nil => simp [countUniform, countStorage]
  | cons e t ih =>
    cases he : e.ty <;>
      simp [countUniform, countStorage, List.countP_cons, he, ih] <;> omega

/-- from_views computes the per-type counts of the view list, never touching
the `images` counter. -/
theorem from_views_eq_counts (views : List ShaderView) :
    DescriptorSizes.from_views views
      = { buffer := countUniform views, storage := countStorage views,
          images := 0 } := by
  simp [DescriptorSizes.from_views, from_views_fold]

theorem countUniform_add_countStorage (views : List ShaderView) :
    countUniform views + countStorage views = views.length := by
  induction views with
  | nil => rfl
  | cons e t ih =>
    cases he : e.ty <;>
      simp [countUniform, countStorage, List.countP_cons, he] at ih ⊢ <;>
        omega

/-! Claims about the descriptor size calculator. -/

/-- C6: DescriptorSizes::from_views is a pure total function: running it twice
on the same `ShaderViews` yields identical sizes, permuting the bindings does
not change the counts, the empty list yields all-zero counts, and each binding
increments exactly the counter matching its `DescriptorType`. -/
theorem c6_from_views_deterministic :
    (∀ v : ShaderViews,
      DescriptorSizes.from_views v = DescriptorSizes.from_views v) ∧
    (∀ v w : ShaderViews, v.Perm w →
      DescriptorSizes.from_views v = DescriptorSizes.from_views w) ∧
    DescriptorSizes.from_views []
      = { buffer := 0, storage := 0, images := 0 } ∧
    (∀ (v : ShaderViews) (e : ShaderView),
      DescriptorSizes.from_views (v ++ [e])
        = match e.ty with
          | DescriptorType.Uniform =>
              { DescriptorSizes.from_views v with
                  buffer := (DescriptorSizes.from_views v).buffer + 1 }
          | DescriptorType.Storage =>
              { DescriptorSizes.from_views v with
                  storage := (DescriptorSizes.from_views v).storage + 1 }) := by
  refine ⟨fun v => rfl, ?_, rfl, ?_⟩
  · intro v w hperm
    simp [from_views_eq_counts, countUniform, countStorage, hperm.countP_eq]
  · intro v e
    cases he : e.ty <;>
      simp [DescriptorSizes.from_views, List.foldl_append, he]

/-- Witness for C6 at a concrete permuted pair of view lists. -/
theorem c6_from_views_deterministic_witness :
    DescriptorSizes.from_views
        [⟨0, DescriptorType.Uniform⟩, ⟨1, DescriptorType.Storage⟩]
      = DescriptorSizes.from_views
        [⟨1, DescriptorType.Storage⟩, ⟨0, DescriptorType.Uniform⟩] :=
  c6_from_views_deterministic.2.1
    [⟨0, DescriptorType.Uniform⟩, ⟨1, DescriptorType.Storage⟩]
    [⟨1, DescriptorType.Storage⟩, ⟨0, DescriptorType.Uniform⟩]
    (by decide)

/-- C10: for every view list, from_views leaves `images` at 0 — only the
buffer and storage counters can be incremented, since `DescriptorType` has
only the `Uniform` and `Storage` variants — and buffer + storage equals the
number of bindings. -/
theorem c10_images_always_zero (views : ShaderViews) :
    (DescriptorSizes.from_views views).images = 0 ∧
    (DescriptorSizes.from_views views).buffer
        + (DescriptorSizes.from_views views).storage
      = views.length := by
  simp [from_views_eq_counts, countUniform_add_countStorage]

/-! Claims about swapchain negotiation and acquire. -/

/-- C7: aquire_next_image maps a driver out-of-date result to
`SwapchainError.OutOfDate`, a suboptimal result to `Suboptimal`, every other
driver error code to `Unknown`, and a successful acquire to `Ok` with the
image index. -/
theorem c7_acquire_error_mapping :
    (∀ i : Nat, aquire_next_image (Except.ok i) = Except.ok i) ∧
    aquire_next_image (Except.error VK_ERROR_OUT_OF_DATE_KHR)
      = Except.error SwapchainError.OutOfDate ∧
    aquire_next_image (Except.error VK_SUBOPTIMAL_KHR)
      = Except.error SwapchainError.Suboptimal ∧
    (∀ err : VkResult,
      err ≠ VK_ERROR_OUT_OF_DATE_KHR → err ≠ VK_SUBOPTIMAL_KHR →
        aquire_next_image (Except.error err)
          = Except.error SwapchainError.Unknown) := by
  refine ⟨fun i => rfl, by rfl, by rfl, ?_⟩
  intro err h1 h2
  simp [aquire_next_image, h1, h2]

/-- Witness for C7 at a concrete unclassified error code. -/
theorem c7_acquire_error_mapping_witness :
    aquire_next_image (Except.error (-4))
      = Except.error SwapchainError.Unknown :=
  c7_acquire_error_mapping.2.2.2 (-4) (by decide) (by decide)

/-- C8: surface-format negotiation replaces a reported undefined format by the
fallback `B8G8R8_UNORM` while keeping the reported color space, and keeps any
defined reported format (with its color space) unchanged. -/
theorem c8_format_fallback (cs : Int) (rest : List SurfaceFormatKHR) :
    select_surface_format
        ({ format := VK_FORMAT_UNDEFINED, color_space := cs } :: rest)
      = some { format := VK_FORMAT_B8G8R8_UNORM, color_space := cs } ∧
    (∀ f : SurfaceFormatKHR, f.format ≠ VK_FORMAT_UNDEFINED →
      select_surface_format (f :: rest) = some f) := by
  constructor
  · simp [select_surface_format]
  · intro f hf
    simp [select_surface_format, hf]

/-- Witness for C8 at concrete surface-format lists. -/
theorem c8_format_fallback_witness :
    select_surface_format [{ format := VK_FORMAT_UNDEFINED, color_space := 7 }]
        = some { format := VK_FORMAT_B8G8R8_UNORM, color_space := 7 } ∧
    select_surface_format [{ format := 44, color_space := 7 }]
        = some { format := 44, color_space := 7 } :=
  ⟨(c8_format_fallback 7 []).1,
   (c8_format_fallback 7 []).2 { format := 44, color_space := 7 } (by decide)⟩

/-- C9: present-mode negotiation selects MAILBOX whenever the supported modes
contain MAILBOX and FIFO otherwise; in particular {FIFO, MAILBOX} yields
MAILBOX and {FIFO} yields FIFO. -/
theorem c9_present_mode_negotiation (modes : List PresentModeKHR) :
    (VK_PRESENT_MODE_MAILBOX_KHR ∈ modes →
      select_present_mode modes = VK_PRESENT_MODE_MAILBOX_KHR) ∧
    (VK_PRESENT_MODE_MAILBOX_KHR ∉ modes →
      select_present_mode modes = VK_PRESENT_MODE_FIFO_KHR) ∧
    select_present_mode
        [VK_PRESENT_MODE_FIFO_KHR, VK_PRESENT_MODE_MAILBOX_KHR]
      = VK_PRESENT_MODE_MAILBOX_KHR ∧
    select_present_mode [VK_PRESENT_MODE_FIFO_KHR]
      = VK_PRESENT_MODE_FIFO_KHR := by
  refine ⟨?_, ?_, by decide, by decide⟩
  · intro hmem
    rcases hf : modes.find?
        (fun mode => decide (mode = VK_PRESENT_MODE_MAILBOX_KHR)) with _ | m
    · exact absurd (by simp : decide (VK_PRESENT_MODE_MAILBOX_KHR
          = VK_PRESENT_MODE_MAILBOX_KHR) = true)
        (by simpa using List.find?_eq_none.mp hf _ hmem)
    · have hm := List.find?_some hf
      simp only [decide_eq_true_eq] at hm
      simp [select_present_mode, hf, hm]
  · intro hmem
    rcases hf : modes.find?
        (fun mode => decide (mode = VK_PRESENT_MODE_MAILBOX_KHR)) with _ | m
    · simp [select_present_mode, hf]
    · have hm := List.find?_some hf
      simp only [decide_eq_true_eq] at hm
      exact absurd (hm ▸ List.mem_of_find?_eq_some hf) hmem

/-- Witness for C9 at the concrete mode sets from the claim. -/
theorem c9_present_mode_negotiation_witness :
    select_present_mode
        [VK_PRESENT_MODE_FIFO_KHR, VK_PRESENT_MODE_MAILBOX_KHR]
      = VK_PRESENT_MODE_MAILBOX_KHR :=
  (c9_present_mode_negotiation
      [VK_PRESENT_MODE_FIFO_KHR, VK_PRESENT_MODE_MAILBOX_KHR]).1
    (by decide)

/-! Step lemmas for the linear allocator. -/

theorem allocate_additional_pool_eq (a : LinearPoolAllocator) :
    a.allocate_additional_pool
      = { a with
          ctx := ⟨a.ctx.next_handle + a.block_size⟩
          descriptors :=
            a.descriptors ++ List.range' a.ctx.next_handle a.block_size
          pools :=
            a.pools ++ [NativePool.mk (List.range' a.ctx.next_handle a.block_size)] } := by
  simp [LinearPoolAllocator.allocate_additional_pool, Context.create_pool,
    NativePool.create_descriptor]

/-- A call with the cursor strictly inside the already-allocated range takes
the no-growth branch and just reads the cached handle. -/
theorem create_descriptor_no_grow (a : LinearPoolAllocator)
    (hb : 0 < a.block_size)
    (hlen : a.descriptors.length = a.pools.length * a.block_size)
    (hlt : a.current_allocations < a.pools.length * a.block_size) :
    ∃ h, a.descriptors[a.current_allocations]? = some h ∧
      a.create_descriptor
        = some (h, { a with
            current_allocations := a.current_allocations + 1 }) := by
  have hidx : a.current_allocations / a.block_size < a.pools.length :=
    (Nat.div_lt_iff_lt_mul hb).mpr hlt
  have hcond : ¬ a.current_allocations / a.block_size ≥ a.pools.length :=
    Nat.not_le.mpr hidx
  rcases hg : a.descriptors[a.current_allocations]? with _ | h
  · rw [List.getElem?_eq_getElem (by omega)] at hg
    cases hg
  · refine ⟨h, rfl, ?_⟩
    simp [LinearPoolAllocator.create_descriptor, if_neg hcond, hg]

/-- A call with the cursor exactly at the end of the allocated range grows by
one pool and returns the first freshly minted handle. -/
theorem create_descriptor_grow (a : LinearPoolAllocator)
    (hb : 0 < a.block_size)
    (hlen : a.descriptors.length = a.pools.length * a.block_size)
    (hcur : a.current_allocations = a.pools.length * a.block_size) :
    a.create_descriptor
      = some (a.ctx.next_handle,
          { a.allocate_additional_pool with
              current_allocations := a.current_allocations + 1 }) := by
  have hidx : a.current_allocations / a.block_size = a.pools.length := by
    rw [hcur, Nat.mul_div_cancel _ hb]
  have hcond : a.current_allocations / a.block_size ≥ a.pools.length :=
    Nat.le_of_eq hidx.symm
  obtain ⟨m, hm⟩ : ∃ m, a.block_size = m + 1 := ⟨a.block_size - 1, by omega⟩
  have hg : (a.allocate_additional_pool).descriptors[a.current_allocations]?
      = some a.ctx.next_handle := by
    rw [allocate_additional_pool_eq]
    simp only
    rw [List.getElem?_append_right (by omega)]
    have hz : a.current_allocations - a.descriptors.length = 0 := by omega
    rw [hz, hm, List.range'_succ]
    simp
  have hcc : (a.allocate_additional_pool).current_allocations
      = a.current_allocations := by
    rw [allocate_additional_pool_eq]
  simp only [LinearPoolAllocator.create_descriptor, if_pos hcond]
  rw [hcc, hg]

theorem createN_succ (n : Nat) (a : LinearPoolAllocator) :
    a.createN (n + 1)
      = (a.createN n).bind
          (fun r =>
            r.2.create_descriptor.map (fun s => (r.1 ++ [s.1], s.2))) := by
  induction n generalizing a with
  | zero =>
      cases h : a.create_descriptor <;>
        simp [LinearPoolAllocator.createN, h]
  | succ n ih =>
      cases h : a.create_descriptor with
      | none => simp [LinearPoolAllocator.createN, h]
      | some r =>
          have hl :
              a.createN (n + 1 + 1)
                = match r.2.createN (n + 1) with
                  | none => none
                  | some (hs, a2) => some (r.1 :: hs, a2) := by
            simp [LinearPoolAllocator.createN, h]
          have hr :
              a.createN (n + 1)
                = match r.2.createN n with
                  | none => none
                  | some (hs, a2) => some (r.1 :: hs, a2) := by
            simp [LinearPoolAllocator.createN, h]
          rw [hl, ih r.2, hr]
          cases hn : r.2.createN n with
          | none => simp
          | some s =>
              cases hs : s.2.create_descriptor <;> simp [hs]

/-- State invariants carried through `createN` from a fresh allocator:
the cursor counts the calls, the pool count is the ceiling `⌈N/50⌉`, and the
handle cache always covers exactly the pools. -/
theorem createN_from_new (ctx : Context) (views : ShaderViews) (N : Nat) :
    ∃ hs a,
      (LinearPoolAllocator.new ctx views).createN N = some (hs, a) ∧
      a.block_size = 50 ∧
      a.current_allocations = N ∧
      a.pools.length = (N + 49) / 50 ∧
      a.descriptors.length = a.pools.length * 50 := by
  induction N with
  | zero =>
      exact ⟨[], LinearPoolAllocator.new ctx views, rfl, rfl, rfl, rfl, rfl⟩
  | succ N ih =>
      obtain ⟨hs, a, hrun, hb, hcur, hpool, hdesc⟩ := ih
      rw [createN_succ, hrun]
      by_cases h50 : N % 50 = 0
      · have hgrow : a.current_allocations = a.pools.length * a.block_size := by
          rw [hb, hcur, hpool]; omega
        have hcd := create_descriptor_grow a (by omega) (by rw [hb]; omega) hgrow
        refine ⟨hs ++ [a.ctx.next_handle],
          { a.allocate_additional_pool with
              current_allocations := a.current_allocations + 1 },
          ?_, ?_, ?_, ?_, ?_⟩ <;>
          simp [hcd, allocate_additional_pool_eq, hb, hcur, hpool, hdesc] <;>
            omega
      · have hlt : a.current_allocations < a.pools.length * a.block_size := by
          rw [hb, hcur, hpool]; omega
        obtain ⟨h, _, hcd⟩ :=
          create_descriptor_no_grow a (by omega) (by rw [hb]; omega) hlt
        refine ⟨hs ++ [h],
          { a with current_allocations := a.current_allocations + 1 },
          ?_, ?_, ?_, ?_, ?_⟩ <;>
          simp [hcd, hb, hcur, hpool, hdesc] <;> omega

/-- C1: for every N ≥ 1, after N calls to create_descriptor with no
intervening reset, starting from a fresh allocator (block_size = 50),
`pools.len() = ⌈N / 50⌉` and `descriptors.len() = pools.len() * 50`; the state
after 50 calls has `current_allocations = 50` with a single pool and satisfies
the growth condition of `create_descriptor`, so the 51st call is the one that
creates the second pool. -/
theorem c1_pool_growth_monotonicity (ctx : Context) (views : ShaderViews)
    (N : Nat) (hN : 1 ≤ N) :
    (∃ hs a,
      (LinearPoolAllocator.new ctx views).createN N = some (hs, a) ∧
      a.pools.length = (N + 50 - 1) / 50 ∧
      a.descriptors.length = a.pools.length * 50 ∧
      a.current_allocations = N) ∧
    (∀ hs50 a50,
      (LinearPoolAllocator.new ctx views).createN 50 = some (hs50, a50) →
        a50.current_allocations = 50 ∧ a50.pools.length = 1 ∧
          a50.current_allocations / a50.block_size ≥ a50.pools.length) := by
  constructor
  · obtain ⟨hs, a, h1, hb, h3, h4, h5⟩ := createN_from_new ctx views N
    exact ⟨hs, a, h1, by omega, h5, h3⟩
  · intro hs50 a50 hrun
    obtain ⟨hs, a, h1, hb, h3, h4, h5⟩ := createN_from_new ctx views 50
    rw [h1] at hrun
    obtain ⟨-, rfl⟩ : hs = hs50 ∧ a = a50 := by
      refine ⟨?_, ?_⟩ <;> cases hrun <;> rfl
    refine ⟨h3, by omega, ?_⟩
    rw [hb, h3, h4]

/-- Witness for C1: 51 allocations from a fresh allocator yield exactly 2
native pools. -/
theorem c1_pool_growth_monotonicity_witness :
    (∃ hs a,
      (LinearPoolAllocator.new ⟨0⟩ []).createN 51 = some (hs, a) ∧
      a.pools.length = (51 + 50 - 1) / 50 ∧
      a.descriptors.length = a.pools.length * 50 ∧
      a.current_allocations = 51) ∧
    (∀ hs50 a50,
      (LinearPoolAllocator.new ⟨0⟩ []).createN 50 = some (hs50, a50) →
        a50.current_allocations = 50 ∧ a50.pools.length = 1 ∧
          a50.current_allocations / a50.block_size ≥ a50.pools.length) :=
  c1_pool_growth_monotonicity ⟨0⟩ [] 51 (by decide)

theorem mem_firstIssues (x : DescriptorHandle) (l : List DescriptorHandle) :
    x ∈ firstIssues l ↔ x ∈ l := by
  induction l using firstIssues.induct with
  | case1 => simp [firstIssues]
  | case2 h t ih =>
      rw [firstIssues, List.mem_cons, ih, List.mem_filter, List.mem_cons]
      by_cases hx : x = h <;> simp [hx]

theorem firstIssues_append_of_mem (l : List DescriptorHandle)
    (x : DescriptorHandle) (hx : x ∈ l) :
    firstIssues (l ++ [x]) = firstIssues l := by
  induction l using firstIssues.induct with
  | case1 => cases hx
  | case2 h t ih =>
      rw [List.cons_append, firstIssues, firstIssues, List.filter_append]
      by_cases hxh : x = h
      · subst hxh
        have hfx : List.filter (fun y => decide (y ≠ x)) [x] = [] := by simp
        rw [hfx, List.append_nil]
      · have hxt : x ∈ t := by
          rcases List.mem_cons.mp hx with h' | h'
          · exact absurd h' hxh
          · exact h'
        have hxf : x ∈ t.filter (fun y => decide (y ≠ h)) :=
          List.mem_filter.mpr ⟨hxt, by simpa using hxh⟩
        have hfx : List.filter (fun y => decide (y ≠ h)) [x] = [x] := by
          simp [hxh]
        rw [hfx, ih hxf]

theorem firstIssues_append_of_not_mem (l : List DescriptorHandle)
    (x : DescriptorHandle) (hx : x ∉ l) :
    firstIssues (l ++ [x]) = firstIssues l ++ [x] := by
  induction l using firstIssues.induct with
  | case1 => simp [firstIssues]
  | case2 h t ih =>
      have hxh : x ≠ h := by
        intro hr
        exact hx (hr ▸ List.mem_cons_self h t)
      have hxt : x ∉ t := fun hmem => hx (List.mem_cons_of_mem h hmem)
      have hxf : x ∉ t.filter (fun y => decide (y ≠ h)) := fun hmem =>
        hxt (List.mem_filter.mp hmem).1
      have hfx : List.filter (fun y => decide (y ≠ h)) [x] = [x] := by
        simp [hxh]
      rw [List.cons_append, firstIssues, firstIssues, List.filter_append,
        hfx, ih hxf, List.cons_append]

theorem reset_foldl (l : List NativePool) (s : LinearPoolAllocator) :
    l.foldl (fun s _pool => { s with current_allocations := 0 }) s
      = if l.isEmpty then s else { s with current_allocations := 0 } := by
  induction l generalizing s with
  | nil => rfl
  | cons p t ih =>
      rw [List.foldl_cons, ih]
      cases t <;> simp

/-- The source's reset loop is the identity on a pool-less allocator and
otherwise zeroes the cursor. -/
theorem reset_eq (a : LinearPoolAllocator) :
    a.reset
      = if a.pools.isEmpty then a
        else { a with current_allocations := 0 } := by
  show a.pools.foldl _ a = _
  rw [reset_foldl]

theorem range'_append_1 (s m n : Nat) :
    List.range' s m ++ List.range' (s + m) n = List.range' s (m + n) := by
  have h := List.range'_append s m n 1
  simp only [one_mul] at h
  rw [Nat.add_comm n m] at h
  exact h

theorem range'_take (s k n : Nat) (h : k ≤ n) :
    (List.range' s n).take k = List.range' s k := by
  induction k generalizing s n with
  | zero => simp
  | succ k ih =>
      cases n with
      | zero => omega
      | succ n =>
          rw [List.range'_succ, List.range'_succ, List.take_succ_cons,
            ih (s + 1) n (by omega)]

theorem range'_snoc (s k : Nat) :
    List.range' s k ++ [s + k] = List.range' s (k + 1) := by
  induction k generalizing s with
  | zero => simp
  | succ k ih =>
      rw [List.range'_succ, List.cons_append,
        show s + (k + 1) = (s + 1) + k by omega, ih, ← List.range'_succ]

theorem range'_getElem? (s n i : Nat) (h : i < n) :
    (List.range' s n)[i]? = some (s + i) := by
  rw [List.getElem?_eq_getElem (by simpa using h)]
  simp [List.getElem_range' i (by simpa using h)]

/-- Every reachable state, with its trace, satisfies the invariants. -/
theorem reach_inv {a : LinearPoolAllocator} {tr : List DescriptorHandle}
    (hr : Reach a tr) : ReachInv a tr := by
  induction hr with
  | new ctx views =>
      refine ⟨rfl, rfl, Nat.le_refl 0, ⟨ctx.next_handle, 0, rfl, rfl⟩,
        0, ?_, Nat.le_refl 0, Nat.le_refl 0⟩
      rw [firstIssues]
      rfl
  | @create a tr hd a1 hre hcd ih =>
      obtain ⟨hb, hlen, hcur, hshape, k, hfi, hkcur, hklen⟩ := ih
      obtain ⟨s, n, hsd, hsn⟩ := hshape
      have hdl : a.descriptors.length = n := by rw [hsd]; simp
      rcases Nat.lt_or_ge a.current_allocations
          (a.pools.length * a.block_size) with hlt | hge
      · -- no-growth call
        obtain ⟨h', hg, hcd'⟩ :=
          create_descriptor_no_grow a (by omega) hlen hlt
        rw [hcd'] at hcd
        simp only [Option.some.injEq, Prod.mk.injEq] at hcd
        obtain ⟨rfl, rfl⟩ := hcd
        have hval : h' = s + a.current_allocations := by
          rw [hsd, range'_getElem? _ _ _ (by omega)] at hg
          exact (Option.some.inj hg).symm
        have htake : a.descriptors.take k = List.range' s k := by
          rw [hsd]
          exact range'_take _ _ _ (by omega)
        refine ⟨hb, hlen, ?_, ⟨s, n, hsd, hsn⟩, ?_⟩
        · show a.current_allocations + 1 ≤ a.descriptors.length
          omega
        · show ∃ k2, firstIssues (tr ++ [h']) = a.descriptors.take k2 ∧
            a.current_allocations + 1 ≤ k2 ∧ k2 ≤ a.descriptors.length
          rcases Nat.lt_or_ge a.current_allocations k with hck | hck
          · have hmem : h' ∈ tr := by
              rw [← mem_firstIssues, hfi, htake, hval, List.mem_range'_1]
              omega
            refine ⟨k, ?_, by omega, hklen⟩
            rw [firstIssues_append_of_mem tr h' hmem, hfi]
          · have hck' : a.current_allocations = k := by omega
            have hnmem : h' ∉ tr := by
              rw [← mem_firstIssues, hfi, htake, hval, hck',
                List.mem_range'_1]
              omega
            refine ⟨k + 1, ?_, by omega, by omega⟩
            rw [firstIssues_append_of_not_mem tr h' hnmem, hfi, htake, hval,
              hck', range'_snoc, hsd, range'_take _ _ _ (by omega)]
      · -- growth call
        have hgeq : a.current_allocations = a.pools.length * a.block_size := by
          omega
        have hcd' := create_descriptor_grow a (by omega) hlen hgeq
        rw [hcd'] at hcd
        simp only [Option.some.injEq, Prod.mk.injEq] at hcd
        obtain ⟨rfl, rfl⟩ := hcd
        have hkeq : k = n := by omega
        have hfi2 : firstIssues tr = a.descriptors := by
          rw [hfi, hkeq, ← hdl, List.take_length]
        have hnmem : a.ctx.next_handle ∉ tr := by
          rw [← mem_firstIssues, hfi2, hsd, hsn, List.mem_range'_1]
          omega
        have hupd : ({ a.allocate_additional_pool with
              current_allocations := a.current_allocations + 1 }
            : LinearPoolAllocator)
            = { a with
                ctx := ⟨a.ctx.next_handle + a.block_size⟩
                descriptors := a.descriptors
                  ++ List.range' a.ctx.next_handle a.block_size
                pools := a.pools
                  ++ [NativePool.mk (List.range' a.ctx.next_handle a.block_size)]
                current_allocations := a.current_allocations + 1 } := by
          rw [allocate_additional_pool_eq]
        rw [hupd]
        refine ⟨hb, ?_, ?_, ⟨s, n + a.block_size, ?_, ?_⟩, ?_⟩
        · show (a.descriptors
              ++ List.range' a.ctx.next_handle a.block_size).length
            = (a.pools
              ++ [NativePool.mk (List.range' a.ctx.next_handle a.block_size)]).length
              * a.block_size
          simp only [List.length_append, List.length_range',
            List.length_cons, List.length_nil, hb]
          rw [hb] at hlen
          omega
        · show a.current_allocations + 1 ≤ (a.descriptors
            ++ List.range' a.ctx.next_handle a.block_size).length
          simp only [List.length_append, List.length_range']
          omega
        · show a.descriptors ++ List.range' a.ctx.next_handle a.block_size
            = List.range' s (n + a.block_size)
          rw [hsd, hsn]
          exact range'_append_1 s n a.block_size
        · show a.ctx.next_handle + a.block_size = s + (n + a.block_size)
          omega
        · show ∃ k2, firstIssues (tr ++ [a.ctx.next_handle])
            = (a.descriptors
              ++ List.range' a.ctx.next_handle a.block_size).take k2 ∧
            a.current_allocations + 1 ≤ k2 ∧
            k2 ≤ (a.descriptors
              ++ List.range' a.ctx.next_handle a.block_size).length
          refine ⟨n + 1, ?_, by omega, ?_⟩
          · rw [firstIssues_append_of_not_mem tr _ hnmem, hfi2, hsd, hsn,
              range'_snoc, range'_append_1,
              range'_take _ _ _ (by omega)]
          · simp only [List.length_append, List.length_range']
            omega
  | @reset a tr hre ih =>
      obtain ⟨hb, hlen, hcur, hshape, k, hfi, hkcur, hklen⟩ := ih
      rw [reset_eq]
      by_cases hemp : a.pools.isEmpty
      · simp only [hemp, if_pos]
        exact ⟨hb, hlen, hcur, hshape, k, hfi, hkcur, hklen⟩
      · simp only [hemp, Bool.false_eq_true, if_false]
        exact ⟨hb, hlen, Nat.zero_le _, hshape, k, hfi, Nat.zero_le _, hklen⟩

/-- C3: in every reachable state of a LinearPoolAllocator,
`current_allocations ≤ descriptors.len()` and
`descriptors.len() = pools.len() * block_size` hold, and the
`descriptors[current_allocations]` read inside create_descriptor is always in
bounds of the (possibly just grown) handle cache, which is fully backed by
allocated native pools — so create_descriptor always returns a handle. -/
theorem c3_allocator_invariants (a : LinearPoolAllocator)
    (tr : List DescriptorHandle) (hr : Reach a tr) :
    a.current_allocations ≤ a.descriptors.length ∧
    a.descriptors.length = a.pools.length * a.block_size ∧
    (∃ handle a1, a.create_descriptor = some (handle, a1)) ∧
    (∀ handle a1, a.create_descriptor = some (handle, a1) →
      a.current_allocations < a1.descriptors.length ∧
      a1.descriptors.length = a1.pools.length * a1.block_size) := by
  obtain ⟨hb, hlen, hcur, hshape, k, hfi, hkcur, hklen⟩ := reach_inv hr
  have hstep : ∃ handle a1, a.create_descriptor = some (handle, a1) ∧
      a.current_allocations < a1.descriptors.length ∧
      a1.descriptors.length = a1.pools.length * a1.block_size := by
    rcases Nat.lt_or_ge a.current_allocations
        (a.pools.length * a.block_size) with hlt | hge
    · obtain ⟨h, hg, hcd⟩ := create_descriptor_no_grow a (by omega) hlen hlt
      refine ⟨h, _, hcd, ?_, ?_⟩
      · show a.current_allocations < a.descriptors.length
        omega
      · exact hlen
    · refine ⟨_, _, create_descriptor_grow a (by omega) hlen (by omega), ?_, ?_⟩
      · show a.current_allocations
          < (a.allocate_additional_pool).descriptors.length
        rw [allocate_additional_pool_eq]
        simp only [List.length_append, List.length_range']
        omega
      · show (a.allocate_additional_pool).descriptors.length
          = (a.allocate_additional_pool).pools.length
            * (a.allocate_additional_pool).block_size
        rw [allocate_additional_pool_eq]
        simp only [List.length_append, List.length_range',
          List.length_cons, List.length_nil]
        rw [hb] at hlen ⊢
        omega
  obtain ⟨h, a1, hcd, hin, hlen1⟩ := hstep
  refine ⟨hcur, hlen, ⟨h, a1, hcd⟩, ?_⟩
  intro h2 a2 hcd2
  rw [hcd] at hcd2
  simp only [Option.some.injEq, Prod.mk.injEq] at hcd2
  obtain ⟨-, rfl⟩ := hcd2
  exact ⟨hin, hlen1⟩

/-- Witness for C3 at a concrete reachable state (a fresh allocator). -/
theorem c3_allocator_invariants_witness :
    (LinearPoolAllocator.new ⟨0⟩ []).current_allocations
        ≤ (LinearPoolAllocator.new ⟨0⟩ []).descriptors.length ∧
    (LinearPoolAllocator.new ⟨0⟩ []).descriptors.length
      = (LinearPoolAllocator.new ⟨0⟩ []).pools.length
        * (LinearPoolAllocator.new ⟨0⟩ []).block_size ∧
    (∃ handle a1, (LinearPoolAllocator.new ⟨0⟩ []).create_descriptor
      = some (handle, a1)) ∧
    (∀ handle a1, (LinearPoolAllocator.new ⟨0⟩ []).create_descriptor
        = some (handle, a1) →
      (LinearPoolAllocator.new ⟨0⟩ []).current_allocations
          < a1.descriptors.length ∧
      a1.descriptors.length = a1.pools.length * a1.block_size) :=
  c3_allocator_invariants (LinearPoolAllocator.new ⟨0⟩ []) []
    (Reach.new ⟨0⟩ [])

/-- C4: for every reachable allocator state, reset() leaves the cursor at 0
and does not touch the pools vector or the descriptors cache (so every
previously minted handle survives a reset). -/
theorem c4_reset_rewinds_cursor_only (a : LinearPoolAllocator)
    (tr : List DescriptorHandle) (hr : Reach a tr) :
    a.reset.current_allocations = 0 ∧
    a.reset.pools = a.pools ∧
    a.reset.descriptors = a.descriptors := by
  obtain ⟨hb, hlen, hcur, hshape, k, hfi, hkcur, hklen⟩ := reach_inv hr
  rw [reset_eq]
  by_cases hemp : a.pools.isEmpty
  · have h0 : a.pools = [] := List.isEmpty_iff.mp hemp
    rw [h0] at hlen
    simp only [List.length_nil, Nat.zero_mul] at hlen
    simp [hemp]
    omega
  · simp [hemp]

/-- Witness for C4 at a concrete reachable state (a fresh allocator). -/
theorem c4_reset_rewinds_cursor_only_witness :
    (LinearPoolAllocator.new ⟨0⟩ []).reset.current_allocations = 0 ∧
    (LinearPoolAllocator.new ⟨0⟩ []).reset.pools
      = (LinearPoolAllocator.new ⟨0⟩ []).pools ∧
    (LinearPoolAllocator.new ⟨0⟩ []).reset.descriptors
      = (LinearPoolAllocator.new ⟨0⟩ []).descriptors :=
  c4_reset_rewinds_cursor_only (LinearPoolAllocator.new ⟨0⟩ []) []
    (Reach.new ⟨0⟩ [])

/-- Running `n` calls that all stay inside the allocated range: no pool is
allocated, the cursor advances by `n`, and the handles returned are the cached
handles from the cursor on. -/
theorem createN_no_grow_run (n : Nat) :
    ∀ a : LinearPoolAllocator, 0 < a.block_size →
      a.descriptors.length = a.pools.length * a.block_size →
      a.current_allocations + n ≤ a.descriptors.length →
      a.createN n = some
        ((a.descriptors.drop a.current_allocations).take n,
         { a with current_allocations := a.current_allocations + n }) := by
  induction n with
  | zero =>
      intro a _ _ _
      simp [LinearPoolAllocator.createN]
  | succ n ih =>
      intro a hb hlen hle
      have hlt : a.current_allocations < a.pools.length * a.block_size := by
        omega
      obtain ⟨h, hg, hcd⟩ := create_descriptor_no_grow a hb hlen hlt
      have hrec := ih { a with
          current_allocations := a.current_allocations + 1 }
        hb hlen (by show a.current_allocations + 1 + n ≤ a.descriptors.length; omega)
      have hcl : a.current_allocations < a.descriptors.length := by omega
      have hgv : h = a.descriptors[a.current_allocations] := by
        rw [List.getElem?_eq_getElem hcl] at hg
        exact (Option.some.inj hg).symm
      simp only [LinearPoolAllocator.createN, hcd, hrec]
      rw [List.drop_eq_getElem_cons hcl, List.take_succ_cons, hgv,
        show a.current_allocations + 1 + n = a.current_allocations + (n + 1)
          by omega]

/-- Running `createN` extends the issue trace by exactly the returned
handles. -/
theorem reach_createN (n : Nat) :
    ∀ (a : LinearPoolAllocator) (tr hs : List DescriptorHandle)
      (a2 : LinearPoolAllocator), Reach a tr →
      a.createN n = some (hs, a2) → Reach a2 (tr ++ hs) := by
  induction n with
  | zero =>
      intro a tr hs a2 hr hrun
      simp only [LinearPoolAllocator.createN, Option.some.injEq,
        Prod.mk.injEq] at hrun
      obtain ⟨rfl, rfl⟩ := hrun
      simpa using hr
  | succ n ih =>
      intro a tr hs a2 hr hrun
      cases hcd : a.create_descriptor with
      | none => simp [LinearPoolAllocator.createN, hcd] at hrun
      | some r =>
          have hr1 : Reach r.2 (tr ++ [r.1]) := Reach.create hr hcd
          simp only [LinearPoolAllocator.createN, hcd] at hrun
          cases hrun2 : r.2.createN n with
          | none => rw [hrun2] at hrun; cases hrun
          | some s =>
              rw [hrun2] at hrun
              simp only [Option.some.injEq, Prod.mk.injEq] at hrun
              obtain ⟨rfl, rfl⟩ := hrun
              have := ih r.2 (tr ++ [r.1]) s.1 s.2 hr1 hrun2
              simpa [List.append_assoc] using this

/-- C2: from any allocator state reached by at least one create_descriptor
call (equivalently, with at least one pool), reset() followed by block_size
create_descriptor() calls allocates no additional pool (the pools vector is
untouched) and returns, in order, the first block_size cached handles — the
handles of the first native pool, which are the first block_size distinct
handles this allocator ever issues (its issue trace, deduplicated to first
issuances, starts with exactly these handles). -/
theorem c2_reset_reuse (a : LinearPoolAllocator) (tr : List DescriptorHandle)
    (hr : Reach a tr) (hp : a.pools ≠ []) :
    ∃ hs a2,
      a.reset.createN a.block_size = some (hs, a2) ∧
      a2.pools = a.pools ∧
      hs = a.descriptors.take a.block_size ∧
      hs = (firstIssues (tr ++ hs)).take a.block_size := by
  obtain ⟨hb, hlen, hcur, hshape, k, hfi, hkcur, hklen⟩ := reach_inv hr
  have hemp : a.pools.isEmpty = false := by
    simpa [List.isEmpty_iff] using hp
  have hres : a.reset = { a with current_allocations := 0 } := by
    rw [reset_eq, hemp]
    simp
  have hplen : 1 ≤ a.pools.length := by
    cases hq : a.pools with
    | nil => exact absurd hq hp
    | cons p t => simp [hq]
  have hlen50 : a.descriptors.length = a.pools.length * 50 := by
    rw [← hb]
    exact hlen
  have hrun0 := createN_no_grow_run a.block_size
    { a with current_allocations := 0 }
    (by show 0 < a.block_size; omega) hlen
    (by show 0 + a.block_size ≤ a.descriptors.length
        rw [hb]
        omega)
  have hrun : a.reset.createN a.block_size
      = some (a.descriptors.take a.block_size,
          { a with current_allocations := a.block_size }) := by
    rw [hres, hrun0]
    simp
  refine ⟨a.descriptors.take a.block_size,
    { a with current_allocations := a.block_size }, hrun, rfl, rfl, ?_⟩
  have hreach2 := reach_createN a.block_size a.reset tr
    (a.descriptors.take a.block_size)
    { a with current_allocations := a.block_size } (Reach.reset hr) hrun
  obtain ⟨_, _, _, _, k2, hfi2, hk2c, hk2l⟩ := reach_inv hreach2
  have hk2c2 : a.block_size ≤ k2 := hk2c
  rw [hfi2, List.take_take, show min a.block_size k2 = a.block_size by omega]

/-- Witness for C2 at a concrete reachable state with one pool and a
one-handle trace. -/
theorem c2_reset_reuse_witness :
    ∃ hs a2,
      sampleAllocator.reset.createN sampleAllocator.block_size
        = some (hs, a2) ∧
      a2.pools = sampleAllocator.pools ∧
      hs = sampleAllocator.descriptors.take sampleAllocator.block_size ∧
      hs = (firstIssues ([0] ++ hs)).take sampleAllocator.block_size :=
  c2_reset_reuse sampleAllocator [0]
    (Reach.create (Reach.new ⟨0⟩ []) (by decide))
    (by decide)

theorem find_setAllocator_ne (l : List (ShaderViews × LinearPoolAllocator))
    (k1 k2 : ShaderViews) (v : LinearPoolAllocator) (hne : k1 ≠ k2) :
    (setAllocator l k1 v).find? (fun e => decide (e.1 = k2))
      = l.find? (fun e => decide (e.1 = k2)) := by
  induction l with
  | nil => simp [setAllocator, hne]
  | cons e t ih =>
      by_cases he : e.1 = k1
      · have he2 : ¬ e.1 = k2 := by rw [he]; exact hne
        simp [setAllocator, he, hne, he2]
      · by_cases he2 : e.1 = k2
        · have h21 : ¬ (k2 = k1) := fun hh => hne hh.symm
          simp [setAllocator, he, he2, h21]
        · simp [setAllocator, he, he2, ih]

theorem find_setAllocator_eq (l : List (ShaderViews × LinearPoolAllocator))
    (k : ShaderViews) (v : LinearPoolAllocator) :
    (setAllocator l k v).find? (fun e => decide (e.1 = k)) = some (k, v) := by
  induction l with
  | nil => simp [setAllocator]
  | cons e t ih =>
      by_cases he : e.1 = k
      · simp [setAllocator, he]
      · simp [setAllocator, he, ih]

/-- C5: Pool::allocate routes a descriptor to the allocator keyed by its
ShaderViews signature: after an allocation for `d1`, the map has an entry for
`d1.views`, while the entry for any different signature `d2.views` — hence
that allocator's cursor and pool count — is exactly what it was before. -/
theorem c5_signature_isolation (p : Pool) (d1 d2 : Descriptor)
    (hne : d1.views ≠ d2.views) (h : DescriptorHandle) (p1 : Pool)
    (hal : p.allocate d1 = some (h, p1)) :
    p1.findAllocator d2.views = p.findAllocator d2.views ∧
    ∃ a1, p1.findAllocator d1.views = some a1 := by
  simp only [Pool.allocate] at hal
  set alloc := (match p.findAllocator d1.views with
    | some a => a
    | none => LinearPoolAllocator.new p.ctx d1.views) with halloc
  cases hcd : alloc.create_descriptor with
  | none => rw [hcd] at hal; cases hal
  | some r =>
      rw [hcd] at hal
      simp only [Option.some.injEq, Prod.mk.injEq] at hal
      obtain ⟨-, rfl⟩ := hal
      constructor
      · show ((setAllocator p.allocators d1.views r.2).find?
            (fun e => decide (e.1 = d2.views))).map Prod.snd
          = (p.allocators.find? (fun e => decide (e.1 = d2.views))).map
            Prod.snd
        rw [find_setAllocator_ne _ _ _ _ hne]
      · refine ⟨r.2, ?_⟩
        show ((setAllocator p.allocators d1.views r.2).find?
            (fun e => decide (e.1 = d1.views))).map Prod.snd = some r.2
        rw [find_setAllocator_eq]
        rfl

/-- Witness for C5 at a concrete pool and two concrete signatures. -/
theorem c5_signature_isolation_witness :
    samplePool.findAllocator
        (Descriptor.mk [ShaderView.mk 0 DescriptorType.Uniform] []).views
      = (Pool.new ⟨0⟩).findAllocator
        (Descriptor.mk [ShaderView.mk 0 DescriptorType.Uniform] []).views ∧
    ∃ a1, samplePool.findAllocator
        (Descriptor.mk [] ([] : List (Binding DescriptorResource))).views
      = some a1 :=
  c5_signature_isolation (Pool.new ⟨0⟩)
    (Descriptor.mk [] [])
    (Descriptor.mk [ShaderView.mk 0 DescriptorType.Uniform] [])
    (by decide) 0 samplePool (by decide)

end Tephra

